import Mathlib

/-!
Verification of the LIRA tiled-inference pipeline
(`lira_static/denoise_predictions.py` and `lira_static/generate_predictions.py`).

The label grid produced by the classifier is a 2D numpy array of class
indices; we embed it as a list of rows of integers.  All numeric values
appearing in the pipeline are small integers (class indices and costs), so
`Int` models the numpy values exactly.
-/

set_option autoImplicit false

abbrev Grid := List (List Int)

/-- Reading `src[i, j]` from a numpy array.  The callers in the denoiser only
ever read in-bounds indices (the neighbor list is filtered before any access),
so the out-of-bounds default is never exercised in the verified statements. -/
def getCell (g : Grid) (i j : Int) : Int :=
  (g.getD i.toNat []).getD j.toNat 0

/-- Embedding of `kronecker_delta(a, b)` from `denoise_predictions.py`:
`np.logical_not(a - b).astype(int)`, which is `1` iff `a - b == 0`. -/
def kronecker_delta (a b : Int) : Int :=
  if a - b = 0 then 1 else 0

/-- Embedding of `get_neighbors(i, j, h, w)` from `denoise_predictions.py`:
build the eight candidate index pairs, then remove the pairs that fall outside
the bounds of the `h × w` image.  The source removes them by iterating
backwards over the list and deleting in place, which yields exactly the
order-preserving filter. -/
def get_neighbors (i j h w : Int) : List (Int × Int) :=
  [(i-1, j-1), (i-1, j), (i-1, j+1), (i, j-1), (i, j+1),
   (i+1, j-1), (i+1, j), (i+1, j+1)].filter
    (fun p => decide (¬(p.1 < 0 ∨ p.1 > h - 1 ∨ p.2 < 0 ∨ p.2 > w - 1)))

/-- Embedding of `cost(dst_val, src_val, src, neighbors)` from
`denoise_predictions.py`: gather the neighbor values from `src`, then return
`-(1 * kronecker_delta(dst_val, src_val) + 10 * sum(kronecker_delta(dst_val, neighbor_vals)))`. -/
def cost (dst_val src_val : Int) (src : Grid) (neighbors : List (Int × Int)) : Int :=
  let neighbor_vals := neighbors.map (fun p => getCell src p.1 p.2);
  -(1 * kronecker_delta dst_val src_val +
    10 * (neighbor_vals.map (fun v => kronecker_delta dst_val v)).sum)

/-- Scanning loop of `np.argmin`: walk the remaining list keeping the index
and value of the best (strictly smallest) element seen so far; a tie keeps the
earlier index, so the overall result is the first position of the minimum. -/
def argminLoop : List Int → Nat → Nat → Int → Nat
  | [], _, best, _ => best
  | x :: xs, cur, best, bestVal =>
      if x < bestVal then argminLoop xs (cur + 1) cur x
      else argminLoop xs (cur + 1) best bestVal

/-- Embedding of `np.argmin` on a 1D array: index of the first occurrence of
the minimal value.  (`np.argmin` on an empty array raises; the `[]` case is
never reached in the verified statements, which require `class_n ≥ 1`.) -/
def np_argmin : List Int → Nat
  | [] => 0
  | x :: xs => argminLoop xs 1 0 x

/-- Value stored into `dst[i, j]` by the inner loops of `denoise_predictions`:
compute the neighbor indices, the cost of each candidate class
`class_i ∈ [0, class_n)`, and take `np.argmin` of the cost vector.  (The numpy
`costs` buffer is reused across cells but every entry is overwritten for every
cell, so it is equivalent to building the cost list afresh.) -/
def cellValue (src : Grid) (class_n h w i j : Nat) : Int :=
  let neighbors := get_neighbors (i : Int) (j : Int) (h : Int) (w : Int)
  let costs := (List.range class_n).map
    (fun c : Nat => cost (c : Int) (getCell src (i : Int) (j : Int)) src neighbors)
  (np_argmin costs : Int)

/-- Embedding of `np.zeros_like(src)` for an `h × w` integer image. -/
def zeros_like (h w : Nat) : Grid :=
  List.replicate h (List.replicate w 0)

/-- Writing `dst[i, j] = v` into a list-of-rows grid. -/
def setCell (g : Grid) (i j : Nat) (v : Int) : Grid :=
  g.set i ((g.getD i []).set j v)

/-- One epoch of `denoise_predictions`, exactly as the source performs it:
allocate `dst = np.zeros_like(src)`, then for `i in range(h)`, `j in range(w)`
write `dst[i, j] = np.argmin(costs)` computed from `src`.  The writes go to
`dst` cell by cell while every read goes to `src`. -/
def epochLoop (src : Grid) (class_n h w : Nat) : Grid :=
  (List.range h).foldl
    (fun dst i =>
      (List.range w).foldl
        (fun dst j => setCell dst i j (cellValue src class_n h w i j)) dst)
    (zeros_like h w)

/-- Modelled from the spec (§4.5): the synchronous (Jacobi-style) epoch step —
build the whole new grid in one step, every cell computed from the pre-epoch
grid only.  Used as the specification side of the refinement proved about
`epochLoop`. -/
def jacobiStep (src : Grid) (class_n h w : Nat) : Grid :=
  (List.range h).map (fun i => (List.range w).map (fun j => cellValue src class_n h w i j))

/-- Embedding of `denoise_predictions(src, class_n, epochs)`.  The source
computes `h, w = src.shape` once, then runs `epochs` epochs, each building a
fresh `dst` from the current `src` and rebinding `src = dst`; finally it
executes `return dst`.  When `epochs == 0` the loop body never runs, `dst` is
never assigned, and `return dst` raises `UnboundLocalError` — modelled as
`none`. -/
def denoise_predictions (src : Grid) (class_n : Nat) (epochs : Nat) : Option Grid :=
  let h := src.length
  let w := (src.headD []).length
  if epochs = 0 then none
  else some ((fun g => epochLoop g class_n h w)^[epochs] src)

/-! ### Characterization of `np_argmin`: first index of the minimal value -/

theorem argminLoop_spec : ∀ (xs l : List Int) (cur best : Nat) (bestVal : Int),
    xs = l.drop cur → best < cur → best < l.length →
    l.getD best 0 = bestVal →
    (∀ m, m < cur → bestVal ≤ l.getD m 0) →
    (∀ m, m < best → bestVal < l.getD m 0) →
    argminLoop xs cur best bestVal < l.length ∧
    (∀ m, m < l.length → l.getD (argminLoop xs cur best bestVal) 0 ≤ l.getD m 0) ∧
    (∀ m, m < argminLoop xs cur best bestVal → l.getD (argminLoop xs cur best bestVal) 0 < l.getD m 0) := by
  intro xs
  induction xs with
  | nil =>
    intro l cur best bestVal hdrop hbc hbl hbv hmin hstrict
    have hlen : l.length ≤ cur := List.drop_eq_nil_iff.mp hdrop.symm
    refine ⟨hbl, ?_, ?_⟩
    · intro m hm
      rw [argminLoop, ← hbv] at *
      exact hmin m (lt_of_lt_of_le hm hlen)
    · intro m hm
      rw [argminLoop] at hm ⊢
      rw [← hbv] at *
      exact hstrict m hm
  | cons x xs ih =>
    intro l cur best bestVal hdrop hbc hbl hbv hmin hstrict
    have hcur : cur < l.length := by
      by_contra hc
      rw [List.drop_eq_nil_iff.mpr (le_of_not_lt hc)] at hdrop
      exact List.noConfusion hdrop
    have hx : l.getD cur 0 = x := by
      have := List.getElem_cons_drop l cur hcur
      rw [← this] at hdrop
      rw [List.getD_eq_getElem l 0 hcur]
      exact (List.cons.injEq _ _ _ _ ▸ hdrop).1.symm
    have hxs : xs = l.drop (cur + 1) := by
      have := List.getElem_cons_drop l cur hcur
      rw [← this] at hdrop
      exact (List.cons.injEq _ _ _ _ ▸ hdrop).2
    rw [argminLoop]
    by_cases hlt : x < bestVal
    · rw [if_pos hlt]
      refine ih l (cur + 1) cur x hxs (Nat.lt_succ_self cur) hcur hx ?_ ?_
      · intro m hm
        rcases Nat.lt_succ_iff_lt_or_eq.mp hm with hm' | hm'
        · exact le_of_lt (lt_of_lt_of_le hlt (hmin m hm'))
        · rw [hm', hx]
      · intro m hm
        exact lt_of_lt_of_le hlt (hmin m hm)
    · rw [if_neg hlt]
      refine ih l (cur + 1) best bestVal hxs (Nat.lt_succ_of_lt hbc) hbl hbv ?_ hstrict
      intro m hm
      rcases Nat.lt_succ_iff_lt_or_eq.mp hm with hm' | hm'
      · exact hmin m hm'
      · rw [hm', hx]
        exact le_of_not_lt hlt

theorem np_argmin_spec (l : List Int) (hl : l ≠ []) :
    np_argmin l < l.length ∧
    (∀ m, m < l.length → l.getD (np_argmin l) 0 ≤ l.getD m 0) ∧
    (∀ m, m < np_argmin l → l.getD (np_argmin l) 0 < l.getD m 0) := by
  cases l with
  | nil => exact absurd rfl hl
  | cons x xs =>
    rw [np_argmin]
    refine argminLoop_spec xs (x :: xs) 1 0 x rfl Nat.one_pos (Nat.succ_pos _) rfl ?_ ?_
    · intro m hm
      interval_cases m
      exact le_refl x
    · intro m hm
      exact absurd hm (Nat.not_lt_zero m)

theorem np_argmin_lt_length (l : List Int) (hl : l ≠ []) : np_argmin l < l.length :=
  (np_argmin_spec l hl).1

theorem np_argmin_eq_of (l : List Int) (k : Nat) (hk : k < l.length)
    (huniq : ∀ m, m < l.length → m ≠ k → l.getD k 0 < l.getD m 0) : np_argmin l = k := by
  have hl : l ≠ [] := List.ne_nil_of_length_pos (Nat.lt_of_le_of_lt (Nat.zero_le k) hk)
  obtain ⟨hlt, hmin, _⟩ := np_argmin_spec l hl
  by_contra hne
  have h1 := hmin k hk
  have h2 := huniq (np_argmin l) hlt hne
  exact absurd (lt_of_le_of_lt h1 h2) (lt_irrefl _)

theorem getD_map_range (f : Nat → Int) (n m : Nat) (hm : m < n) :
    ((List.range n).map f).getD m 0 = f m := by
  have hlen : m < ((List.range n).map f).length := by
    rw [List.length_map, List.length_range]; exact hm
  rw [List.getD_eq_getElem _ 0 hlen, List.getElem_map, List.getElem_range]

/-! ### Sequence of in-place writes versus whole-grid construction -/

theorem set_getD_self {α : Type _} :
    ∀ (l : List α) (n : Nat) (d : α), n < l.length → l.set n (l.getD n d) = l
  | [], n, _, h => absurd h (Nat.not_lt_zero n)
  | x :: xs, 0, d, _ => rfl
  | x :: xs, n + 1, d, h => by
    simp only [List.set, List.getD_cons_succ]
    rw [set_getD_self xs n d (Nat.lt_of_succ_lt_succ h)]

theorem getD_set_self {α : Type _} (l : List α) (r : Nat) (v d : α) (h : r < l.length) :
    (l.set r v).getD r d = v := by
  rw [List.getD_eq_getElem _ d (by rw [List.length_set]; exact h), List.getElem_set_self]

theorem foldl_set_getD {α β : Type _} (r : Nat) (d : α) (u : β → α → α) :
    ∀ (l : List β) (s : List α), r < s.length →
      l.foldl (fun acc x => acc.set r (u x (acc.getD r d))) s
        = s.set r (l.foldl (fun a x => u x a) (s.getD r d)) := by
  intro l
  induction l with
  | nil =>
    intro s hr
    simp only [List.foldl_nil]
    exact (set_getD_self s r d hr).symm
  | cons x xs ih =>
    intro s hr
    simp only [List.foldl_cons]
    have hr1 : r < (s.set r (u x (s.getD r d))).length := by
      rw [List.length_set]; exact hr
    rw [ih _ hr1, getD_set_self s r _ d hr, List.set_set]

theorem set_append_length {α : Type _} :
    ∀ (a b : List α) (v : α), (a ++ b).set a.length v = a ++ b.set 0 v
  | [], _, _ => rfl
  | x :: a, b, v => congrArg (fun t => x :: t) (set_append_length a b v)

theorem set_append_of_length {α : Type _} (a b : List α) (v : α) (n : Nat)
    (h : a.length = n) : (a ++ b).set n v = a ++ b.set 0 v := by
  subst h
  exact set_append_length a b v

theorem foldl_set_range {α : Type _} (f : Nat → α) :
    ∀ (n : Nat) (l : List α), n ≤ l.length →
      (List.range n).foldl (fun r j => r.set j (f j)) l = (List.range n).map f ++ l.drop n := by
  intro n
  induction n with
  | zero => intro l _; simp
  | succ n ih =>
    intro l h
    have hn : n < l.length := h
    rw [List.range_succ, List.foldl_append, ih l (Nat.le_of_succ_le h), List.map_append]
    simp only [List.foldl_cons, List.foldl_nil, List.map_cons, List.map_nil]
    have hlen : ((List.range n).map f).length = n := by simp
    rw [set_append_of_length _ _ _ _ hlen]
    rw [← List.getElem_cons_drop l n hn, List.set_cons_zero]
    simp

/-- Rewriting one full row of cell-by-cell writes as a single row update. -/
theorem inner_loop_eq (src : Grid) (class_n h w i : Nat) (s : Grid) (hi : i < s.length) :
    (List.range w).foldl (fun dst j => setCell dst i j (cellValue src class_n h w i j)) s
      = s.set i ((List.range w).foldl
          (fun row j => row.set j (cellValue src class_n h w i j)) (s.getD i [])) :=
  foldl_set_getD i [] (fun j row => row.set j (cellValue src class_n h w i j)) (List.range w) s hi

/-- Stronger, bounded form of the loop/Jacobi correspondence: after processing
the first `n` rows, the destination grid consists of the `n` fully recomputed
rows followed by the untouched zero rows. -/
theorem epochLoop_fold_spec (src : Grid) (class_n h w : Nat) :
    ∀ n, n ≤ h →
      (List.range n).foldl
        (fun dst i => (List.range w).foldl
          (fun dst j => setCell dst i j (cellValue src class_n h w i j)) dst)
        (zeros_like h w)
      = (List.range n).map (fun i => (List.range w).map (fun j => cellValue src class_n h w i j))
        ++ (zeros_like h w).drop n := by
  intro n
  induction n with
  | zero => intro _; simp
  | succ n ih =>
    intro h1
    have hn : n < h := h1
    rw [List.range_succ, List.foldl_append, ih (Nat.le_of_succ_le h1), List.map_append]
    simp only [List.foldl_cons, List.foldl_nil, List.map_cons, List.map_nil]
    have hzlen : (zeros_like h w).length = h := by
      rw [zeros_like, List.length_replicate]
    have hmaplen :
        ((List.range n).map
          (fun i => (List.range w).map (fun j => cellValue src class_n h w i j))).length = n := by
      simp
    have hDlen :
        ((List.range n).map
            (fun i => (List.range w).map (fun j => cellValue src class_n h w i j))
          ++ (zeros_like h w).drop n).length = h := by
      rw [List.length_append, hmaplen, List.length_drop, hzlen]
      omega
    have hdropn : (zeros_like h w).drop n
        = List.replicate w (0 : Int) :: (zeros_like h w).drop (n + 1) := by
      rw [zeros_like, List.drop_replicate, List.drop_replicate]
      have hsub : h - n = (h - (n + 1)) + 1 := by omega
      rw [hsub, List.replicate_succ]
    rw [inner_loop_eq src class_n h w n _ (by rw [hDlen]; exact hn)]
    have hgetD :
        (((List.range n).map
            (fun i => (List.range w).map (fun j => cellValue src class_n h w i j))
          ++ (zeros_like h w).drop n).getD n []) = List.replicate w (0 : Int) := by
      rw [List.getD_append_right _ _ _ _ (by rw [hmaplen]), hmaplen, Nat.sub_self, hdropn,
        List.getD_cons_zero]
    rw [hgetD]
    rw [foldl_set_range (fun j => cellValue src class_n h w n j) w (List.replicate w 0)
      (by rw [List.length_replicate])]
    rw [List.drop_replicate, Nat.sub_self, List.replicate_zero, List.append_nil]
    rw [set_append_of_length _ _ _ _ hmaplen, hdropn, List.set_cons_zero]
    simp

/-- Key correspondence: the sequential cell-by-cell write loop of the source
computes exactly the synchronous whole-grid step, because every read of the
epoch goes to `src` and every write goes to the freshly allocated `dst`. -/
theorem epochLoop_eq_jacobiStep (src : Grid) (class_n h w : Nat) :
    epochLoop src class_n h w = jacobiStep src class_n h w := by
  rw [epochLoop, jacobiStep, epochLoop_fold_spec src class_n h w h (le_refl h)]
  rw [zeros_like, List.drop_replicate, Nat.sub_self, List.replicate_zero, List.append_nil]

/-! ### Claim C1 -/

/-- C1 (code_bug evaluation): the spec promises that `epochs = 0` is a valid
no-op returning the input grid unchanged, but in the source `dst` is assigned
only inside the epoch loop, so with `epochs = 0` the final `return dst` raises
`UnboundLocalError`; the call produces no grid at all (modelled as `none`),
for every input grid and class count. -/
theorem denoise_predictions_zero_epochs_none (L : Grid) (class_n : Nat) :
    denoise_predictions L class_n 0 = none := rfl

/-! ### Claim C3 -/

/-- C3: each denoising epoch is a synchronous (Jacobi-style) update — the
sequential write loop of the source equals the whole-grid step `jacobiStep`
in which every cell is computed from the pre-epoch grid, and the grid after
`epochs` epochs is exactly `epochs` applications of that single-epoch step
function to the input grid. -/
theorem denoise_predictions_eq_iterate_jacobiStep (L : Grid) (class_n epochs : Nat)
    (he : 1 ≤ epochs) :
    denoise_predictions L class_n epochs
      = some ((fun g => jacobiStep g class_n L.length (L.headD []).length)^[epochs] L) := by
  simp only [denoise_predictions]
  rw [if_neg (by omega)]
  have hfun : (fun g => epochLoop g class_n L.length (L.headD []).length)
      = (fun g => jacobiStep g class_n L.length (L.headD []).length) :=
    funext (fun g => epochLoop_eq_jacobiStep g class_n L.length (L.headD []).length)
  rw [hfun]

/-- Witness for C3 at a concrete input. -/
theorem denoise_predictions_eq_iterate_jacobiStep_witness :
    1 ≤ 1 ∧ denoise_predictions [[0]] 1 1
      = some ((fun g => jacobiStep g 1 1 1)^[1] [[0]]) :=
  ⟨le_refl 1, denoise_predictions_eq_iterate_jacobiStep [[0]] 1 1 (le_refl 1)⟩

/-! ### Claim C2 -/

/-- Modelled from the spec (§4.5) and claim C2: the per-cell candidate cost
`cost(c) = -(1 · 1[c = L(i,j)] + 10 · Σ over in-bounds neighbors n of 1[c = L(n)])`,
written with indicator functions exactly as the spec states it.  This is the
specification side compared against the source's `cost`/`kronecker_delta`. -/
def specCost (L : Grid) (h w i j c : Nat) : Int :=
  -(1 * (if (c : Int) = getCell L i j then 1 else 0) +
    10 * (((get_neighbors (i : Int) (j : Int) (h : Int) (w : Int)).map
      (fun p => if (c : Int) = getCell L p.1 p.2 then 1 else 0)).sum))

theorem kronecker_delta_eq_indicator (a b : Int) :
    kronecker_delta a b = if a = b then 1 else 0 := by
  simp [kronecker_delta, sub_eq_zero]

theorem cost_eq_specCost (L : Grid) (h w i j c : Nat) :
    cost (c : Int) (getCell L i j) L (get_neighbors (i : Int) (j : Int) (h : Int) (w : Int))
      = specCost L h w i j c := by
  simp only [cost, specCost, kronecker_delta_eq_indicator, List.map_map]
  rfl

theorem getCell_jacobiStep (src : Grid) (class_n h w i j : Nat) (hi : i < h) (hj : j < w) :
    getCell (jacobiStep src class_n h w) i j = cellValue src class_n h w i j := by
  rw [jacobiStep, getCell]
  rw [Int.toNat_natCast, Int.toNat_natCast]
  have hlen1 : i < ((List.range h).map
      (fun i => (List.range w).map (fun j => cellValue src class_n h w i j))).length := by
    simpa using hi
  rw [List.getD_eq_getElem _ [] hlen1, List.getElem_map, List.getElem_range]
  have hlen2 : j < ((List.range w).map (fun j2 => cellValue src class_n h w i j2)).length := by
    simpa using hj
  rw [List.getD_eq_getElem _ 0 hlen2, List.getElem_map, List.getElem_range]

theorem cellValue_eq_argmin_specCost (L : Grid) (class_n h w i j : Nat) :
    cellValue L class_n h w i j
      = (np_argmin ((List.range class_n).map (fun c => specCost L h w i j c)) : Int) := by
  rw [cellValue]
  congr 2
  exact List.map_congr_left (fun c _ => cost_eq_specCost L h w i j c)

/-- C2: for every cell `(i, j)` of the grid and every epoch, the denoiser's new
label is a class index `c < class_n` whose spec-level cost
`-(1·1[c = L(i,j)] + 10·Σ_n 1[c = L(n)])` is minimal among all candidate
classes in `[0, class_n)`, and every strictly smaller class index has a
strictly larger cost (first-minimum tie-break); the computation is a pure
function of the pre-epoch grid, hence deterministic. -/
theorem denoiser_cell_first_argmin (L : Grid) (class_n h w i j : Nat)
    (hi : i < h) (hj : j < w) (hcn : 1 ≤ class_n) :
    ∃ c : Nat, getCell (epochLoop L class_n h w) i j = c ∧ c < class_n ∧
      (∀ c2, c2 < class_n → specCost L h w i j c ≤ specCost L h w i j c2) ∧
      (∀ c2, c2 < c → specCost L h w i j c < specCost L h w i j c2) := by
  rw [epochLoop_eq_jacobiStep, getCell_jacobiStep L class_n h w i j hi hj,
    cellValue_eq_argmin_specCost]
  have hclen : ((List.range class_n).map (fun c => specCost L h w i j c)).length = class_n := by
    simp
  have hcne : (List.range class_n).map (fun c => specCost L h w i j c) ≠ [] :=
    List.ne_nil_of_length_pos (by rw [hclen]; exact hcn)
  obtain ⟨hlt, hmin, hfirst⟩ := np_argmin_spec _ hcne
  rw [hclen] at hlt
  refine ⟨np_argmin ((List.range class_n).map (fun c => specCost L h w i j c)), rfl, hlt, ?_, ?_⟩
  · intro c2 hc2
    have h1 := hmin c2 (by rw [hclen]; exact hc2)
    rwa [getD_map_range _ _ _ hlt, getD_map_range _ _ _ hc2] at h1
  · intro c2 hc2
    have h1 := hfirst c2 hc2
    rwa [getD_map_range _ _ _ hlt, getD_map_range _ _ _ (lt_trans hc2 hlt)] at h1

/-- Witness for C2 at a concrete input. -/
theorem denoiser_cell_first_argmin_witness :
    0 < 2 ∧ 1 ≤ 2 ∧
    ∃ c : Nat, getCell (epochLoop [[0, 1], [1, 1]] 2 2 2) 0 0 = c ∧ c < 2 ∧
      (∀ c2, c2 < 2 → specCost [[0, 1], [1, 1]] 2 2 0 0 c ≤ specCost [[0, 1], [1, 1]] 2 2 0 0 c2) ∧
      (∀ c2, c2 < c → specCost [[0, 1], [1, 1]] 2 2 0 0 c < specCost [[0, 1], [1, 1]] 2 2 0 0 c2) :=
  ⟨by decide, by decide,
    denoiser_cell_first_argmin [[0, 1], [1, 1]] 2 2 2 0 0 (by decide) (by decide) (by decide)⟩

/-! ### Claim C4 -/

set_option maxHeartbeats 3200000 in
/-- C4: for every cell `(i, j)` of an `h × w` grid, `get_neighbors` returns
exactly the in-bounds cells at Chebyshev distance 1 from `(i, j)` — clipped at
the boundary, no wraparound, no out-of-bounds cells — and consequently a
corner cell of a grid with `h, w ≥ 2` has exactly 3 neighbors, a non-corner
edge cell exactly 5, and an interior cell exactly 8. -/
theorem get_neighbors_chebyshev (h w i j : Nat) (hi : i < h) (hj : j < w) :
    (∀ a b : Int, ((a, b) ∈ get_neighbors (i : Int) (j : Int) (h : Int) (w : Int) ↔
      (0 ≤ a ∧ a < (h : Int) ∧ 0 ≤ b ∧ b < (w : Int) ∧
        max (a - (i : Int)).natAbs (b - (j : Int)).natAbs = 1)))
    ∧ (2 ≤ h → 2 ≤ w → (i = 0 ∨ i = h - 1) → (j = 0 ∨ j = w - 1) →
        (get_neighbors (i : Int) (j : Int) (h : Int) (w : Int)).length = 3)
    ∧ (2 ≤ h → (i = 0 ∨ i = h - 1) → 0 < j → j < w - 1 →
        (get_neighbors (i : Int) (j : Int) (h : Int) (w : Int)).length = 5)
    ∧ (2 ≤ w → (j = 0 ∨ j = w - 1) → 0 < i → i < h - 1 →
        (get_neighbors (i : Int) (j : Int) (h : Int) (w : Int)).length = 5)
    ∧ (0 < i → i < h - 1 → 0 < j → j < w - 1 →
        (get_neighbors (i : Int) (j : Int) (h : Int) (w : Int)).length = 8) := by
  refine ⟨?_, ?_, ?_, ?_, ?_⟩
  · intro a b
    simp only [get_neighbors, List.mem_filter, List.mem_cons, List.not_mem_nil, or_false,
      Prod.mk.injEq, decide_eq_true_eq]
    omega
  · intro hh hw hci hcj
    rcases hci with rfl | rfl <;> rcases hcj with rfl | rfl <;>
      (rw [get_neighbors, ← List.countP_eq_length_filter]
       simp only [List.countP_cons, List.countP_nil, decide_eq_true_eq]
       split_ifs <;> omega)
  · intro hh hci hj0 hjw
    rcases hci with rfl | rfl <;>
      (rw [get_neighbors, ← List.countP_eq_length_filter]
       simp only [List.countP_cons, List.countP_nil, decide_eq_true_eq]
       split_ifs <;> omega)
  · intro hw hcj hi0 hih
    rcases hcj with rfl | rfl <;>
      (rw [get_neighbors, ← List.countP_eq_length_filter]
       simp only [List.countP_cons, List.countP_nil, decide_eq_true_eq]
       split_ifs <;> omega)
  · intro hi0 hih hj0 hjw
    rw [get_neighbors, ← List.countP_eq_length_filter]
    simp only [List.countP_cons, List.countP_nil, decide_eq_true_eq]
    split_ifs <;> omega

/-- Witness for C4 at a concrete input. -/
theorem get_neighbors_chebyshev_witness :
    1 < 3 ∧
    (((0 : Int), (0 : Int)) ∈ get_neighbors ((1 : Nat) : Int) ((1 : Nat) : Int)
      ((3 : Nat) : Int) ((3 : Nat) : Int) ↔
      (0 ≤ (0 : Int) ∧ (0 : Int) < ((3 : Nat) : Int) ∧ 0 ≤ (0 : Int) ∧
        (0 : Int) < ((3 : Nat) : Int) ∧
        max ((0 : Int) - ((1 : Nat) : Int)).natAbs ((0 : Int) - ((1 : Nat) : Int)).natAbs = 1))
    ∧ (get_neighbors ((1 : Nat) : Int) ((1 : Nat) : Int) ((3 : Nat) : Int) ((3 : Nat) : Int)).length = 8 :=
  ⟨by decide,
    (get_neighbors_chebyshev 3 3 1 1 (by decide) (by decide)).1 0 0,
    (get_neighbors_chebyshev 3 3 1 1 (by decide) (by decide)).2.2.2.2
      (by decide) (by decide) (by decide) (by decide)⟩

/-! ### Claims C5 and C6: helper lemmas -/

theorem kronecker_delta_self (a : Int) : kronecker_delta a a = 1 := by
  simp [kronecker_delta]

theorem kronecker_delta_of_ne (a b : Int) (h : a ≠ b) : kronecker_delta a b = 0 := by
  simp [kronecker_delta, sub_eq_zero, h]

theorem cost_eq_zero_of_unused (c v : Int) (src : Grid) (nbrs : List (Int × Int))
    (hv : kronecker_delta c v = 0)
    (hn : ∀ p ∈ nbrs, kronecker_delta c (getCell src p.1 p.2) = 0) :
    cost c v src nbrs = 0 := by
  rw [cost]
  simp only [hv, List.map_map]
  have hsum : (nbrs.map (fun p => kronecker_delta c (getCell src p.1 p.2))).sum = 0 := by
    apply List.sum_eq_zero
    intro x hx
    obtain ⟨p, hp, rfl⟩ := List.mem_map.mp hx
    exact hn p hp
  have hcomp : (fun v2 => kronecker_delta c v2) ∘ (fun p : Int × Int => getCell src p.1 p.2)
      = fun p : Int × Int => kronecker_delta c (getCell src p.1 p.2) := rfl
  rw [hcomp, hsum]
  ring

/-- If class `0` has strictly smaller cost than class `1` and is itself
negative, while every label in sight is `0` or `1`, then the argmin over all
`class_n ≥ 2` candidate classes is class `0` (all classes `≥ 2` have cost 0).
This is the per-cell core of the spec's outlier-correction test. -/
theorem cellValue_eq_zero_of (src : Grid) (class_n h w i j : Nat) (hcn : 2 ≤ class_n)
    (hv : getCell src (i : Int) (j : Int) = 0 ∨ getCell src (i : Int) (j : Int) = 1)
    (hvals : ∀ p ∈ get_neighbors (i : Int) (j : Int) (h : Int) (w : Int),
      getCell src p.1 p.2 = 0 ∨ getCell src p.1 p.2 = 1)
    (hlt : cost 0 (getCell src (i : Int) (j : Int)) src
        (get_neighbors (i : Int) (j : Int) (h : Int) (w : Int))
      < cost 1 (getCell src (i : Int) (j : Int)) src
        (get_neighbors (i : Int) (j : Int) (h : Int) (w : Int)))
    (hneg : cost 0 (getCell src (i : Int) (j : Int)) src
        (get_neighbors (i : Int) (j : Int) (h : Int) (w : Int)) < 0) :
    cellValue src class_n h w i j = 0 := by
  rw [cellValue]
  have key : np_argmin ((List.range class_n).map
      (fun c : Nat => cost (c : Int) (getCell src (i : Int) (j : Int)) src
        (get_neighbors (i : Int) (j : Int) (h : Int) (w : Int)))) = 0 := by
    apply np_argmin_eq_of _ 0 (by simp; omega)
    intro m hm hm0
    rw [List.length_map, List.length_range] at hm
    rw [getD_map_range _ _ _ (by omega), getD_map_range _ _ _ hm]
    rcases Nat.lt_or_ge m 2 with hm2 | hm2
    · have : m = 1 := by omega
      subst this
      simpa using hlt
    · have hzero : cost ((m : Nat) : Int) (getCell src (i : Int) (j : Int)) src
          (get_neighbors (i : Int) (j : Int) (h : Int) (w : Int)) = 0 := by
        apply cost_eq_zero_of_unused
        · rcases hv with hv0 | hv0 <;> rw [hv0] <;>
            exact kronecker_delta_of_ne _ _ (by intro hcontra; omega)
        · intro p hp
          rcases hvals p hp with hp0 | hp0 <;> rw [hp0] <;>
            exact kronecker_delta_of_ne _ _ (by intro hcontra; omega)
      rw [hzero]
      simpa using hneg
  rw [key]
  rfl

def mkUniform (h w c : Nat) : Grid :=
  List.replicate h (List.replicate w (c : Int))

theorem getCell_mkUniform (h w c : Nat) (a b : Int)
    (ha0 : 0 ≤ a) (hah : a < (h : Int)) (hb0 : 0 ≤ b) (hbw : b < (w : Int)) :
    getCell (mkUniform h w c) a b = (c : Int) := by
  have h1 : (List.replicate h (List.replicate w (c : Int))).getD a.toNat []
      = List.replicate w (c : Int) := by
    rw [List.getD_eq_getElem _ _ (by rw [List.length_replicate]; omega), List.getElem_replicate]
  rw [getCell, mkUniform, h1]
  rw [List.getD_eq_getElem _ _ (by rw [List.length_replicate]; omega), List.getElem_replicate]

theorem get_neighbors_in_bounds (i j h w : Int) (p : Int × Int)
    (hp : p ∈ get_neighbors i j h w) :
    0 ≤ p.1 ∧ p.1 ≤ h - 1 ∧ 0 ≤ p.2 ∧ p.2 ≤ w - 1 := by
  rw [get_neighbors, List.mem_filter] at hp
  have := of_decide_eq_true hp.2
  omega

theorem sum_eq_length_of_ones (l : List Int) (h : ∀ x ∈ l, x = 1) :
    l.sum = l.length := by
  induction l with
  | nil => rfl
  | cons x xs ih =>
    rw [List.sum_cons, List.length_cons, h x (List.mem_cons_self x xs),
      ih (fun y hy => h y (List.mem_cons_of_mem x hy))]
    push_cast
    ring

theorem cellValue_mkUniform (h w c class_n i j : Nat) (hc : c < class_n)
    (hi : i < h) (hj : j < w) :
    cellValue (mkUniform h w c) class_n h w i j = (c : Int) := by
  rw [cellValue]
  have hval : getCell (mkUniform h w c) (i : Int) (j : Int) = (c : Int) :=
    getCell_mkUniform h w c _ _ (by omega) (by omega) (by omega) (by omega)
  have hnb : ∀ p ∈ get_neighbors (i : Int) (j : Int) (h : Int) (w : Int),
      getCell (mkUniform h w c) p.1 p.2 = (c : Int) := by
    intro p hp
    obtain ⟨h1, h2, h3, h4⟩ := get_neighbors_in_bounds _ _ _ _ p hp
    exact getCell_mkUniform h w c p.1 p.2 h1 (by omega) h3 (by omega)
  have key : np_argmin ((List.range class_n).map
      (fun c2 : Nat => cost (c2 : Int) (getCell (mkUniform h w c) (i : Int) (j : Int))
        (mkUniform h w c) (get_neighbors (i : Int) (j : Int) (h : Int) (w : Int)))) = c := by
    apply np_argmin_eq_of _ c (by simp; omega)
    intro m hm hmc
    rw [List.length_map, List.length_range] at hm
    rw [getD_map_range _ _ _ hc, getD_map_range _ _ _ hm]
    have hcc : cost (c : Int) (getCell (mkUniform h w c) (i : Int) (j : Int))
        (mkUniform h w c) (get_neighbors (i : Int) (j : Int) (h : Int) (w : Int)) < 0 := by
      rw [cost, hval, kronecker_delta_self]
      have hones : ((get_neighbors (i : Int) (j : Int) (h : Int) (w : Int)).map
          (fun p => getCell (mkUniform h w c) p.1 p.2)).map
            (fun v => kronecker_delta ((c : Nat) : Int) v)
          = List.replicate (get_neighbors (i : Int) (j : Int) (h : Int) (w : Int)).length 1 := by
        rw [List.map_map, List.eq_replicate_iff]
        constructor
        · simp
        · intro b hb
          obtain ⟨p, hp, rfl⟩ := List.mem_map.mp hb
          simp only [Function.comp_apply]
          rw [hnb p hp, kronecker_delta_self]
      rw [hones, List.sum_replicate, nsmul_eq_mul, mul_one]
      omega
    have hmm : cost (m : Int) (getCell (mkUniform h w c) (i : Int) (j : Int))
        (mkUniform h w c) (get_neighbors (i : Int) (j : Int) (h : Int) (w : Int)) = 0 := by
      apply cost_eq_zero_of_unused
      · rw [hval]
        exact kronecker_delta_of_ne _ _ (by intro hcontra; omega)
      · intro p hp
        rw [hnb p hp]
        exact kronecker_delta_of_ne _ _ (by intro hcontra; omega)
    omega
  rw [key]

/-! ### Claim C5 -/

/-- C5: on the 3×3 grid that is all class 0 except a class-1 center, one
denoising epoch with any `class_n ≥ 2` (α = 1, β = 10 as hard-coded in the
source) produces the all-zero 3×3 grid; in particular the center outlier is
corrected to 0. -/
theorem denoise_outlier_correction (class_n : Nat) (hcn : 2 ≤ class_n) :
    denoise_predictions [[0, 0, 0], [0, 1, 0], [0, 0, 0]] class_n 1
      = some [[0, 0, 0], [0, 0, 0], [0, 0, 0]] := by
  have e := fun (i j : Nat) => cellValue_eq_zero_of
    [[0, 0, 0], [0, 1, 0], [0, 0, 0]] class_n 3 3 i j hcn
  have hstep : jacobiStep [[0, 0, 0], [0, 1, 0], [0, 0, 0]] class_n 3 3
      = [[0, 0, 0], [0, 0, 0], [0, 0, 0]] := by
    rw [jacobiStep]
    rw [show List.range 3 = [0, 1, 2] from rfl]
    simp only [List.map_cons, List.map_nil]
    rw [e 0 0 (by decide) (by decide) (by decide) (by decide),
      e 0 1 (by decide) (by decide) (by decide) (by decide),
      e 0 2 (by decide) (by decide) (by decide) (by decide),
      e 1 0 (by decide) (by decide) (by decide) (by decide),
      e 1 1 (by decide) (by decide) (by decide) (by decide),
      e 1 2 (by decide) (by decide) (by decide) (by decide),
      e 2 0 (by decide) (by decide) (by decide) (by decide),
      e 2 1 (by decide) (by decide) (by decide) (by decide),
      e 2 2 (by decide) (by decide) (by decide) (by decide)]
  simp only [denoise_predictions]
  rw [if_neg one_ne_zero, Function.iterate_one, epochLoop_eq_jacobiStep]
  exact congrArg some hstep

/-- Witness for C5 at the smallest allowed class count. -/
theorem denoise_outlier_correction_witness :
    2 ≤ 2 ∧ denoise_predictions [[0, 0, 0], [0, 1, 0], [0, 0, 0]] 2 1
      = some [[0, 0, 0], [0, 0, 0], [0, 0, 0]] :=
  ⟨le_refl 2, denoise_outlier_correction 2 (le_refl 2)⟩

/-! ### Claim C6 -/

/-- C6 counterexample: the claim as stated quantifies over any number of
epochs, including 0 — but with `epochs = 0` the source raises
`UnboundLocalError` (models as `none`) instead of returning the uniform grid,
so the uniform 1×1 zero grid is not returned unchanged. -/
theorem denoise_uniform_zero_epochs_counterexample :
    denoise_predictions (mkUniform 1 1 0) 1 0 ≠ some (mkUniform 1 1 0) := by
  decide

/-- C6 (amended to `epochs ≥ 1`): a uniform grid — every cell the same class
`c` with `c < class_n` — is a fixed point of the denoiser for any number of
epochs at least 1. -/
theorem denoise_uniform_fixed_point (h w c class_n epochs : Nat)
    (hc : c < class_n) (he : 1 ≤ epochs) :
    denoise_predictions (mkUniform h w c) class_n epochs = some (mkUniform h w c) := by
  simp only [denoise_predictions]
  rw [if_neg (by omega)]
  congr 1
  apply Function.iterate_fixed
  cases h with
  | zero => rfl
  | succ k =>
    have hlen : (mkUniform (k + 1) w c).length = k + 1 := by
      rw [mkUniform, List.length_replicate]
    have hhead : ((mkUniform (k + 1) w c).headD []).length = w := by
      rw [mkUniform, List.replicate_succ, List.headD_cons, List.length_replicate]
    rw [hlen, hhead, epochLoop_eq_jacobiStep, jacobiStep]
    conv_rhs => rw [mkUniform]
    rw [List.eq_replicate_iff]
    refine ⟨by simp, ?_⟩
    intro b hb
    obtain ⟨i, hi, rfl⟩ := List.mem_map.mp hb
    rw [List.eq_replicate_iff]
    refine ⟨by simp, ?_⟩
    intro x hx
    obtain ⟨j, hj, rfl⟩ := List.mem_map.mp hx
    exact cellValue_mkUniform (k + 1) w c class_n i j hc
      (List.mem_range.mp hi) (List.mem_range.mp hj)

/-- Witness for C6 at a concrete input. -/
theorem denoise_uniform_fixed_point_witness :
    0 < 1 ∧ 1 ≤ 2 ∧ denoise_predictions (mkUniform 2 2 0) 1 2 = some (mkUniform 2 2 0) :=
  ⟨Nat.zero_lt_one, by omega, denoise_uniform_fixed_point 2 2 0 1 2 Nat.zero_lt_one (by omega)⟩

/-! ### Claim C9 -/

/-- C9: for `class_n ≥ 1` and `epochs ≥ 1`, every entry of the returned grid
is an integer in `[0, class_n)` — even when the input grid contains labels
outside that range — because each cell is assigned `np.argmin` over exactly
`class_n` candidate costs. -/
theorem denoise_labels_in_range (L : Grid) (class_n epochs : Nat)
    (hcn : 1 ≤ class_n) (he : 1 ≤ epochs) (g : Grid)
    (hg : denoise_predictions L class_n epochs = some g) :
    ∀ row ∈ g, ∀ x ∈ row, 0 ≤ x ∧ x < (class_n : Int) := by
  simp only [denoise_predictions] at hg
  rw [if_neg (by omega)] at hg
  have hgeq := (Option.some_inj.mp hg).symm
  subst hgeq
  obtain ⟨k, rfl⟩ : ∃ k, epochs = k + 1 := ⟨epochs - 1, by omega⟩
  intro row hrow x hx
  simp only [Function.iterate_succ_apply'] at hrow
  rw [epochLoop_eq_jacobiStep, jacobiStep] at hrow
  obtain ⟨i, hi, rfl⟩ := List.mem_map.mp hrow
  obtain ⟨j, hj, rfl⟩ := List.mem_map.mp hx
  simp only [cellValue]
  refine ⟨Int.natCast_nonneg _, ?_⟩
  have hne : ((List.range class_n).map
      (fun c : Nat => cost (c : Int)
        (getCell ((fun g2 => epochLoop g2 class_n L.length (L.headD []).length)^[k] L)
          (i : Int) (j : Int))
        ((fun g2 => epochLoop g2 class_n L.length (L.headD []).length)^[k] L)
        (get_neighbors (i : Int) (j : Int) (L.length : Int) ((L.headD []).length : Int)))) ≠ [] :=
    List.ne_nil_of_length_pos (by simp; omega)
  have hlt := np_argmin_lt_length _ hne
  rw [List.length_map, List.length_range] at hlt
  exact_mod_cast hlt

/-- Witness for C9 at a concrete input with an out-of-range label. -/
theorem denoise_labels_in_range_witness :
    1 ≤ 1 ∧ denoise_predictions [[5]] 1 1 = some [[0]] ∧
      (∀ row ∈ ([[0]] : Grid), ∀ x ∈ row, 0 ≤ x ∧ x < ((1 : Nat) : Int)) :=
  ⟨le_refl 1, by decide,
    denoise_labels_in_range [[5]] 1 1 (le_refl 1) (le_refl 1) [[0]] (by decide)⟩

/-! ### Claim C10: heap-level model of the denoiser

To talk about mutation of the caller's numpy array, the denoiser is modelled
one level lower: a heap is a list of array objects, a reference is an index
into it, `np.zeros_like` allocates a fresh object at the end of the heap, and
`dst[i, j] = v` is an in-place update of the referenced object.  Every read of
`src[...]` goes through the heap at the time of the read, exactly as the
imperative code does. -/

abbrev Heap := List Grid

def heapGet (hp : Heap) (r : Nat) : Grid := hp.getD r []

/-- One epoch of `denoise_predictions` at heap level: allocate
`dst = np.zeros_like(src)` as a fresh object, run the nested write loop
(each write mutates the `dst` object in place, each read consults the current
heap at `srcRef`), and rebind `src = dst` by returning the new reference. -/
def epochH (class_n h w : Nat) (st : Heap × Nat) : Heap × Nat :=
  let hp := st.1
  let srcRef := st.2
  let dstRef := hp.length
  let hp1 := hp ++ [zeros_like h w]
  let hp2 := (List.range h).foldl
    (fun acc i => (List.range w).foldl
      (fun acc j => acc.set dstRef
        (setCell (acc.getD dstRef []) i j
          (cellValue (acc.getD srcRef []) class_n h w i j))) acc)
    hp1
  (hp2, dstRef)

/-- Heap-level `denoise_predictions`: `h, w` are read once from the input
array, then `epochs` epochs run, each allocating a fresh destination; with
`epochs = 0` the `return dst` raises (`none`), as in claim C1. -/
def denoiseH (hp : Heap) (srcRef class_n epochs : Nat) : Option (Heap × Nat) :=
  let h := (heapGet hp srcRef).length
  let w := ((heapGet hp srcRef).headD []).length
  if epochs = 0 then none
  else some ((epochH class_n h w)^[epochs] (hp, srcRef))

theorem getD_set_ne {α : Type _} (l : List α) (r m : Nat) (v d : α) (h : r ≠ m) :
    (l.set r v).getD m d = l.getD m d := by
  rw [List.getD_eq_getElem?_getD, List.getElem?_set_ne h, ← List.getD_eq_getElem?_getD]

theorem foldl_heap_update {β : Type _} (r s : Nat) (hrs : s ≠ r)
    (F : β → Grid → Grid → Grid) :
    ∀ (l : List β) (hp : Heap), r < hp.length →
      l.foldl (fun acc x => acc.set r (F x (acc.getD r []) (acc.getD s []))) hp
        = hp.set r (l.foldl (fun g x => F x g (hp.getD s [])) (hp.getD r [])) := by
  intro l
  induction l with
  | nil =>
    intro hp hr
    simp only [List.foldl_nil]
    exact (set_getD_self hp r [] hr).symm
  | cons x xs ih =>
    intro hp hr
    simp only [List.foldl_cons]
    have hr1 : r < (hp.set r (F x (hp.getD r []) (hp.getD s []))).length := by
      rw [List.length_set]; exact hr
    rw [ih _ hr1]
    rw [getD_set_ne hp r s _ [] (fun hcontra => hrs hcontra.symm)]
    rw [getD_set_self hp r _ [] hr, List.set_set]

theorem epoch_fold_spec (class_n h w r s : Nat) (hrs : s ≠ r) :
    ∀ (l : List Nat) (hp : Heap), r < hp.length →
      l.foldl (fun acc i => (List.range w).foldl
        (fun acc j => acc.set r
          (setCell (acc.getD r []) i j
            (cellValue (acc.getD s []) class_n h w i j))) acc) hp
      = hp.set r (l.foldl (fun g i => (List.range w).foldl
          (fun g j => setCell g i j (cellValue (hp.getD s []) class_n h w i j)) g)
          (hp.getD r [])) := by
  intro l
  induction l with
  | nil =>
    intro hp hr
    simp only [List.foldl_nil]
    exact (set_getD_self hp r [] hr).symm
  | cons i l ih =>
    intro hp hr
    simp only [List.foldl_cons]
    rw [foldl_heap_update r s hrs
      (fun j g srcG => setCell g i j (cellValue srcG class_n h w i j)) (List.range w) hp hr]
    have hr1 : r < (hp.set r ((List.range w).foldl
        (fun g j => setCell g i j (cellValue (hp.getD s []) class_n h w i j))
        (hp.getD r []))).length := by
      rw [List.length_set]; exact hr
    rw [ih _ hr1]
    rw [getD_set_ne hp r s _ [] (fun hcontra => hrs hcontra.symm)]
    rw [getD_set_self hp r _ [] hr, List.set_set]

theorem epochH_spec (class_n h w : Nat) (hp : Heap) (srcRef : Nat)
    (hs : srcRef < hp.length) :
    epochH class_n h w (hp, srcRef)
      = (hp ++ [epochLoop (hp.getD srcRef []) class_n h w], hp.length) := by
  simp only [epochH]
  have hr : hp.length < (hp ++ [zeros_like h w]).length := by
    rw [List.length_append]
    simp
  have hsne : srcRef ≠ hp.length := by omega
  rw [epoch_fold_spec class_n h w hp.length srcRef hsne (List.range h) _ hr]
  have h1 : (hp ++ [zeros_like h w]).getD srcRef [] = hp.getD srcRef [] :=
    List.getD_append _ _ _ _ hs
  have h2 : (hp ++ [zeros_like h w]).getD hp.length [] = zeros_like h w := by
    rw [List.getD_append_right _ _ _ _ (le_refl _), Nat.sub_self, List.getD_cons_zero]
  rw [h1, h2]
  rw [set_append_of_length hp [zeros_like h w] _ hp.length rfl, List.set_cons_zero]
  rfl

theorem denoiseH_iterate (class_n h w : Nat) :
    ∀ (k : Nat) (hp : Heap) (srcRef : Nat), srcRef < hp.length →
      ∃ gs : List Grid, gs ≠ [] ∧
        (epochH class_n h w)^[k + 1] (hp, srcRef) = (hp ++ gs, hp.length + gs.length - 1) := by
  intro k
  induction k with
  | zero =>
    intro hp srcRef hs
    refine ⟨[epochLoop (hp.getD srcRef []) class_n h w], by simp, ?_⟩
    rw [Function.iterate_one, epochH_spec class_n h w hp srcRef hs]
    simp
  | succ k ih =>
    intro hp srcRef hs
    obtain ⟨gs, hne, hiter⟩ := ih hp srcRef hs
    have hlen : 1 ≤ gs.length := List.length_pos.mpr hne
    have hs2 : hp.length + gs.length - 1 < (hp ++ gs).length := by
      rw [List.length_append]; omega
    refine ⟨gs ++ [epochLoop ((hp ++ gs).getD (hp.length + gs.length - 1) []) class_n h w],
      by simp, ?_⟩
    rw [Function.iterate_succ_apply', hiter,
      epochH_spec class_n h w (hp ++ gs) (hp.length + gs.length - 1) hs2]
    rw [List.append_assoc]
    have href : (hp ++ gs).length
        = hp.length + (gs ++ [epochLoop ((hp ++ gs).getD (hp.length + gs.length - 1) [])
            class_n h w]).length - 1 := by
      simp
    rw [href]

/-- C10: `denoise_predictions` never mutates the caller's input array — for
`epochs ≥ 1`, at heap level the call succeeds, the object at the input
reference still holds its original contents afterwards (every write targets a
freshly allocated destination object), and the returned grid is a distinct
object from the input. -/
theorem denoiseH_no_input_mutation (hp : Heap) (srcRef class_n epochs : Nat)
    (hs : srcRef < hp.length) (he : 1 ≤ epochs) :
    ∃ hp2 dstRef, denoiseH hp srcRef class_n epochs = some (hp2, dstRef) ∧
      heapGet hp2 srcRef = heapGet hp srcRef ∧ dstRef ≠ srcRef := by
  obtain ⟨k, rfl⟩ : ∃ k, epochs = k + 1 := ⟨epochs - 1, by omega⟩
  obtain ⟨gs, hne, hiter⟩ := denoiseH_iterate class_n
    (heapGet hp srcRef).length ((heapGet hp srcRef).headD []).length k hp srcRef hs
  have hlen : 1 ≤ gs.length := List.length_pos.mpr hne
  refine ⟨hp ++ gs, hp.length + gs.length - 1, ?_, ?_, ?_⟩
  · simp only [denoiseH]
    rw [if_neg (by omega), hiter]
  · rw [heapGet, heapGet, List.getD_append _ _ _ _ hs]
  · omega

/-- Witness for C10 at a concrete input. -/
theorem denoiseH_no_input_mutation_witness :
    0 < 1 ∧ 1 ≤ 1 ∧
    ∃ hp2 dstRef, denoiseH [[[0]]] 0 1 1 = some (hp2, dstRef) ∧
      heapGet hp2 0 = heapGet [[[0]]] 0 ∧ dstRef ≠ 0 :=
  ⟨Nat.zero_lt_one, le_refl 1,
    denoiseH_no_input_mutation [[[0]]] 0 1 1 Nat.zero_lt_one (le_refl 1)⟩

/-! ### Claim C7: the batching loop of `generate_predictions`

The classification loop in `generate_predictions.py` walks the flat tile
vector `subs` with `for sub_i in xrange(0, len(subs), mb_n)`, slicing
`batch = subs[sub_i : sub_i + mb_n]` — `xrange` with step `mb_n` performs
`ceil(len(subs) / mb_n)` iterations and the Python slice clamps at the end of
the list, which is `take`/`drop` on lists. -/

def batches {α : Type _} (xs : List α) (mb : Nat) : List (List α) :=
  (List.range ((xs.length + mb - 1) / mb)).map (fun k => (xs.drop (k * mb)).take mb)

/-- Embedding of the numpy slice assignment
`overlay_predictions[pos : pos + len(vals)] = vals` (valid when the slice lies
inside the array and `vals` has exactly the slice's length, which the
classifier contract guarantees here). -/
def setSlice (arr : List Int) (pos : Nat) (vals : List Int) : List Int :=
  arr.take pos ++ vals ++ arr.drop (pos + vals.length)

/-- Embedding of the write loop: for each batch,
`overlay_predictions[overlay_prediction_i : overlay_prediction_i + batch.shape[0]] = classifier.classify(batch)`
followed by `overlay_prediction_i += batch.shape[0]`. -/
def writeLoop {α : Type _} (classify : List α → List Int) :
    List (List α) → List Int → Nat → List Int
  | [], arr, _ => arr
  | b :: bs, arr, pos => writeLoop classify bs (setSlice arr pos (classify b)) (pos + b.length)

/-- Embedding of the per-block classification phase: allocate
`overlay_predictions = np.zeros(n)` for the `n` tiles of the block (`n` equals
`len(subs)`, the length of the flat tile vector), then run the batch loop. -/
def generate_overlay_predictions {α : Type _} (classify : List α → List Int)
    (xs : List α) (mb : Nat) : List Int :=
  writeLoop classify (batches xs mb) (List.replicate xs.length 0) 0

theorem getD_map_range2 {α : Type _} (f : Nat → α) (d : α) (n m : Nat) (hm : m < n) :
    ((List.range n).map f).getD m d = f m := by
  have hlen : m < ((List.range n).map f).length := by
    rw [List.length_map, List.length_range]; exact hm
  rw [List.getD_eq_getElem _ _ hlen, List.getElem_map, List.getElem_range]

theorem batches_nil {α : Type _} (mb : Nat) (hmb : 1 ≤ mb) :
    batches ([] : List α) mb = [] := by
  rw [batches]
  have : ((List.nil (α := α)).length + mb - 1) / mb = 0 := by
    rw [List.length_nil]
    exact Nat.div_eq_of_lt (by omega)
  rw [this]
  rfl

theorem batches_cons {α : Type _} (xs : List α) (mb : Nat) (hmb : 1 ≤ mb) (hxs : xs ≠ []) :
    batches xs mb = xs.take mb :: batches (xs.drop mb) mb := by
  have hn : 1 ≤ xs.length := List.length_pos.mpr hxs
  have hceil : (xs.length + mb - 1) / mb = ((xs.drop mb).length + mb - 1) / mb + 1 := by
    rw [List.length_drop]
    have e1 : xs.length + mb - 1 = (xs.length - 1) + mb := by omega
    rw [e1, Nat.add_div_right _ (by omega)]
    congr 1
    rcases le_or_lt xs.length mb with hle | hlt
    · have e2 : xs.length - mb + mb - 1 = mb - 1 := by omega
      rw [e2, Nat.div_eq_of_lt (by omega), Nat.div_eq_of_lt (by omega)]
    · have e2 : xs.length - mb + mb - 1 = (xs.length - mb - 1) + mb := by omega
      have e3 : xs.length - 1 = (xs.length - mb - 1) + mb := by omega
      rw [e2, e3]
  rw [batches, batches, hceil, List.range_succ_eq_map]
  simp only [List.map_cons, List.map_map]
  congr 1
  · rw [Nat.zero_mul, List.drop_zero]
  · apply List.map_congr_left
    intro k _
    simp only [Function.comp_apply]
    rw [List.drop_drop, Nat.succ_mul]
    congr 2
    omega

theorem batches_flatten_aux {α : Type _} (mb : Nat) (hmb : 1 ≤ mb) :
    ∀ (n : Nat) (xs : List α), xs.length ≤ n → (batches xs mb).flatten = xs := by
  intro n
  induction n with
  | zero =>
    intro xs hxs
    have hnil : xs = [] := List.eq_nil_of_length_eq_zero (by omega)
    subst hnil
    rw [batches_nil mb hmb]
    rfl
  | succ n ih =>
    intro xs hxs
    rcases eq_or_ne xs [] with rfl | hne
    · rw [batches_nil mb hmb]
      rfl
    · have hpos := List.length_pos.mpr hne
      rw [batches_cons xs mb hmb hne, List.flatten_cons,
        ih (xs.drop mb) (by rw [List.length_drop]; omega), List.take_append_drop]

theorem batches_flatten {α : Type _} (xs : List α) (mb : Nat) (hmb : 1 ≤ mb) :
    (batches xs mb).flatten = xs :=
  batches_flatten_aux mb hmb xs.length xs (le_refl _)

theorem batches_length_le {α : Type _} (xs : List α) (mb : Nat) :
    ∀ b ∈ batches xs mb, b.length ≤ mb := by
  intro b hb
  obtain ⟨k, _, rfl⟩ := List.mem_map.mp hb
  rw [List.length_take]
  omega

theorem batches_full {α : Type _} (xs : List α) (mb : Nat) (hmb : 1 ≤ mb) (k : Nat)
    (hk : k + 1 < (batches xs mb).length) : ((batches xs mb).getD k []).length = mb := by
  rw [batches, List.length_map, List.length_range] at hk
  rw [batches, getD_map_range2 _ _ _ _ (by omega)]
  rw [List.length_take, List.length_drop]
  have h1 : ((xs.length + mb - 1) / mb) * mb ≤ xs.length + mb - 1 := Nat.div_mul_le_self _ _
  have h2 : (k + 2) * mb ≤ ((xs.length + mb - 1) / mb) * mb :=
    Nat.mul_le_mul_right _ (by omega)
  have h3 : (k + 2) * mb = k * mb + 2 * mb := by ring
  rw [h3] at h2
  generalize hA : k * mb = A at h2 ⊢
  omega

theorem batches_getLast_aux {α : Type _} (mb : Nat) (hmb : 1 ≤ mb) :
    ∀ (n : Nat) (xs : List α), xs.length ≤ n → xs.length % mb ≠ 0 →
      ∃ b, (batches xs mb).getLast? = some b ∧ b.length = xs.length % mb := by
  intro n
  induction n with
  | zero =>
    intro xs hxs hmod
    have hnil : xs = [] := List.eq_nil_of_length_eq_zero (by omega)
    subst hnil
    simp at hmod
  | succ n ih =>
    intro xs hxs hmod
    have hne : xs ≠ [] := by
      intro hcontra
      subst hcontra
      simp at hmod
    have hpos := List.length_pos.mpr hne
    rw [batches_cons xs mb hmb hne]
    rcases le_or_lt xs.length mb with hle | hlt
    · have hdnil : xs.drop mb = [] := List.drop_eq_nil_iff.mpr hle
      rw [hdnil, batches_nil mb hmb, List.getLast?_singleton]
      have hlt2 : xs.length < mb := by
        rcases Nat.lt_or_ge xs.length mb with h | h
        · exact h
        · have : xs.length = mb := by omega
          rw [this, Nat.mod_self] at hmod
          exact absurd rfl hmod
      refine ⟨xs.take mb, rfl, ?_⟩
      rw [List.take_of_length_le (by omega), Nat.mod_eq_of_lt hlt2]
    · have hdne : xs.drop mb ≠ [] := by
        intro hcontra
        have := List.drop_eq_nil_iff.mp hcontra
        omega
      have hmod2 : (xs.drop mb).length % mb = xs.length % mb := by
        rw [List.length_drop]
        have e : xs.length = (xs.length - mb) + mb := by omega
        conv_rhs => rw [e]
        rw [Nat.add_mod_right]
      obtain ⟨b, hb1, hb2⟩ := ih (xs.drop mb)
        (by rw [List.length_drop]; omega) (by rw [hmod2]; exact hmod)
      refine ⟨b, ?_, by rw [hb2, hmod2]⟩
      rw [List.getLast?_cons, hb1]
      rfl

theorem writeLoop_spec {α : Type _} (classify : List α → List Int)
    (hclassify : ∀ b, (classify b).length = b.length) :
    ∀ (bs : List (List α)) (arr : List Int) (pos : Nat),
      arr.length = pos + (bs.map List.length).sum →
      writeLoop classify bs arr pos = arr.take pos ++ (bs.map classify).flatten := by
  intro bs
  induction bs with
  | nil =>
    intro arr pos h
    simp only [writeLoop, List.map_nil, List.flatten_nil, List.append_nil]
    exact (List.take_of_length_le (by simp at h; omega)).symm
  | cons b bs ih =>
    intro arr pos h
    simp only [List.map_cons, List.sum_cons] at h
    have hb := hclassify b
    have hple : pos + b.length ≤ arr.length := by omega
    have htakelen : (arr.take pos).length = pos := by
      rw [List.length_take]
      omega
    have hsl : (setSlice arr pos (classify b)).length = arr.length := by
      rw [setSlice, List.length_append, List.length_append, List.length_take,
        List.length_drop, hb]
      omega
    simp only [writeLoop]
    rw [ih (setSlice arr pos (classify b)) (pos + b.length) (by rw [hsl]; omega)]
    have htake : (setSlice arr pos (classify b)).take (pos + b.length)
        = arr.take pos ++ classify b := by
      rw [setSlice, List.append_assoc]
      have e : pos + b.length = (arr.take pos).length + b.length := by
        rw [htakelen]
      rw [e, List.take_append]
      congr 1
      have e2 : b.length = (classify b).length := hb.symm
      rw [e2, List.take_left]
    rw [htake, List.map_cons, List.flatten_cons, List.append_assoc]

/-- C7: the classification loop consumes the flat tile sequence in
consecutive slices — every batch has exactly `mb_n` tiles except possibly the
final one, which has `n mod mb_n` tiles when `mb_n` does not divide `n` and is
never padded; the per-batch labels are written at consecutive positions, so
the flat label vector is the in-order concatenation of the classifier outputs,
one label per tile, covering every tile exactly once
(`(batches xs mb).flatten = xs`). -/
theorem generate_predictions_batching {α : Type _} (xs : List α) (mb : Nat)
    (classify : List α → List Int) (hmb : 1 ≤ mb)
    (hclassify : ∀ b, (classify b).length = b.length) :
    (batches xs mb).flatten = xs
    ∧ (∀ b ∈ batches xs mb, b.length ≤ mb)
    ∧ (∀ k, k + 1 < (batches xs mb).length → ((batches xs mb).getD k []).length = mb)
    ∧ (xs.length % mb ≠ 0 →
        ∃ b, (batches xs mb).getLast? = some b ∧ b.length = xs.length % mb)
    ∧ generate_overlay_predictions classify xs mb = ((batches xs mb).map classify).flatten
    ∧ (generate_overlay_predictions classify xs mb).length = xs.length := by
  have hflat := batches_flatten xs mb hmb
  have hsum : ((batches xs mb).map List.length).sum = xs.length := by
    rw [← List.length_flatten, hflat]
  have hmain : generate_overlay_predictions classify xs mb
      = ((batches xs mb).map classify).flatten := by
    rw [generate_overlay_predictions]
    rw [writeLoop_spec classify hclassify (batches xs mb) _ 0
      (by rw [List.length_replicate, hsum]; omega)]
    simp
  refine ⟨hflat, batches_length_le xs mb, fun k hk => batches_full xs mb hmb k hk,
    fun hmod => batches_getLast_aux mb hmb xs.length xs (le_refl _) hmod, hmain, ?_⟩
  rw [hmain, List.length_flatten, List.map_map]
  have hcomp : (batches xs mb).map (List.length ∘ classify)
      = (batches xs mb).map List.length := by
    apply List.map_congr_left
    intro b _
    exact hclassify b
  rw [hcomp, hsum]

/-- Witness for C7 at a concrete input (three tiles, batch size two). -/
theorem generate_predictions_batching_witness :
    1 ≤ 2 ∧
    ((batches [1, 2, 3] 2).flatten = [1, 2, 3]
    ∧ (∀ b ∈ batches [1, 2, 3] 2, b.length ≤ 2)
    ∧ (∀ k, k + 1 < (batches [1, 2, 3] 2).length → ((batches [1, 2, 3] 2).getD k []).length = 2)
    ∧ (([1, 2, 3] : List Nat).length % 2 ≠ 0 →
        ∃ b, (batches [1, 2, 3] 2).getLast? = some b ∧
          b.length = ([1, 2, 3] : List Nat).length % 2)
    ∧ generate_overlay_predictions (fun b : List Nat => b.map (fun t : Nat => (t : Int))) [1, 2, 3] 2
        = ((batches [1, 2, 3] 2).map (fun b : List Nat => b.map (fun t : Nat => (t : Int)))).flatten
    ∧ (generate_overlay_predictions (fun b : List Nat => b.map (fun t : Nat => (t : Int)))
        [1, 2, 3] 2).length = ([1, 2, 3] : List Nat).length) :=
  ⟨by decide,
    generate_predictions_batching [1, 2, 3] 2 (fun b : List Nat => b.map (fun t : Nat => (t : Int)))
      (by decide) (fun b => by rw [List.length_map])⟩

/-! ### Claim C8: the assembler of `generate_predictions` -/

/-- Modelled from the spec: `get_concatenated_row` is defined in
`img_handler.py`, which is not among the provided sources; per §4.4 it takes a
pair of block matrices and concatenates them left to right (requiring equal
row counts, a fatal mismatch otherwise — on equal heights this is a row-wise
append). -/
def get_concatenated_row (pair : List (List Int) × List (List Int)) : List (List Int) :=
  List.zipWith (fun r1 r2 => r1 ++ r2) pair.1 pair.2

/-- Modelled from the spec: `get_concatenated_col` is defined in
`img_handler.py`, which is not among the provided sources; per §4.4 it
concatenates the block-row matrices top to bottom. -/
def get_concatenated_col (rows : List (List (List Int))) : List (List Int) :=
  rows.flatten

/-- Embedding of `np.reshape(v, (r, c))` on a flat vector, row-major (numpy's
default C order): entry `(i, j)` of the result is `v[i*c + j]`. -/
def np_reshape (v : List Int) (r c : Nat) : List (List Int) :=
  (List.range r).map (fun i => (List.range c).map (fun j => v.getD (i * c + j) 0))

/-- Embedding of the assembly loop of `generate_predictions.py`: for each
`row_i`, `predictions[row_i]` starts as an empty array, is assigned the
block's label matrix when `col_i == 0` and otherwise grows by
`get_concatenated_row((predictions[row_i], overlay_predictions))`; the rows
are finally combined with `get_concatenated_col`.  The label matrix produced
for block `(row_i, col_i)` is abstracted as `block row_i col_i`. -/
def assemblePredictions (factor : Nat) (block : Nat → Nat → List (List Int)) :
    List (List Int) :=
  get_concatenated_col ((List.range factor).map (fun row_i =>
    (List.range factor).foldl
      (fun acc col_i =>
        if col_i = 0 then block row_i 0 else get_concatenated_row (acc, block row_i col_i))
      []))

/-- C8: with partition factor 1 (a single block covering the whole image), the
assembled label grid equals the direct row-major reshape of that block's raw
flat classifier output vector — the row- and column-concatenation steps
introduce no corruption. -/
theorem assemble_factor_one_roundtrip (v : List Int) (r c : Nat) :
    assemblePredictions 1 (fun _ _ => np_reshape v r c) = np_reshape v r c := by
  rw [assemblePredictions]
  rw [show List.range 1 = [0] from rfl]
  simp only [List.map_cons, List.map_nil, List.foldl_cons, List.foldl_nil]
  rw [if_pos trivial, get_concatenated_col, List.flatten_cons, List.flatten_nil, List.append_nil]
